import Mathlib

/-!
Verification of the Zo-Qore integrity-ledger core (Content Sealer and Chain
Verifier) and of two HTTP handlers from the TTS bridge scripts.

The sealer/verifier scripts are described by the specification but are not
present under `src/`; their definitions below are therefore modelled from the
spec (each such definition's doc comment says so).  The TTS handler models are
translated from `src/zo/tts/data/qwen3-tts-bridge.py` and
`src/zo/tts/server/server.py`.

Machine integers are modelled as `Nat` with explicit `% 2^32` where 32-bit
overflow matters.  Bytes are `Nat` values below 256.
-/

set_option maxRecDepth 400000

namespace ZoQore

/-! ## SHA-256 (the fixed 256-bit digest the spec requires, lowercase hex) -/

/-- The 64 SHA-256 round constants (fractional parts of cube roots of the
first 64 primes), as 32-bit words written in decimal. -/
def shaK : List Nat :=
  [1116352408, 1899447441, 3049323471, 3921009573, 961987163, 1508970993,
   2453635748, 2870763221, 3624381080, 310598401, 607225278, 1426881987,
   1925078388, 2162078206, 2614888103, 3248222580, 3835390401, 4022224774,
   264347078, 604807628, 770255983, 1249150122, 1555081692, 1996064986,
   2554220882, 2821834349, 2952996808, 3210313671, 3336571891, 3584528711,
   113926993, 338241895, 666307205, 773529912, 1294757372, 1396182291,
   1695183700, 1986661051, 2177026350, 2456956037, 2730485921, 2820302411,
   3259730800, 3345764771, 3516065817, 3600352804, 4094571909, 275423344,
   430227734, 506948616, 659060556, 883997877, 958139571, 1322822218,
   1537002063, 1747873779, 1955562222, 2024104815, 2227730452, 2361852424,
   2428436474, 2756734187, 3204031479, 3329325298]

/-- The eight initial SHA-256 state words, in decimal. -/
def shaH0 : List Nat :=
  [1779033703, 3144134277, 1013904242, 2773480762, 1359893119,
   2600822924, 528734635, 1541459225]

/-- Rotate the 32-bit word `x` right by `n` bit positions. -/
def rotr (n x : Nat) : Nat := ((x >>> n) ||| (x <<< (32 - n))) % 2 ^ 32

/-- Bitwise complement of a 32-bit word. -/
def not32 (x : Nat) : Nat := x ^^^ 0xffffffff

def bsig0 (x : Nat) : Nat := rotr 2 x ^^^ rotr 13 x ^^^ rotr 22 x
def bsig1 (x : Nat) : Nat := rotr 6 x ^^^ rotr 11 x ^^^ rotr 25 x
def ssig0 (x : Nat) : Nat := rotr 7 x ^^^ rotr 18 x ^^^ (x >>> 3)
def ssig1 (x : Nat) : Nat := rotr 17 x ^^^ rotr 19 x ^^^ (x >>> 10)
def shaCh (e f g : Nat) : Nat := (e &&& f) ^^^ (not32 e &&& g)
def shaMaj (a b c : Nat) : Nat := (a &&& b) ^^^ (a &&& c) ^^^ (b &&& c)

/-- Pack a byte list into big-endian 32-bit words (four bytes per word). -/
def toWords : List Nat → List Nat
  | b0 :: b1 :: b2 :: b3 :: rest =>
      ((b0 <<< 24) ||| (b1 <<< 16) ||| (b2 <<< 8) ||| b3) :: toWords rest
  | _ => []

/-- Extend a 16-word message schedule by `n` further words. -/
def extendSchedule (w : List Nat) : Nat → List Nat
  | 0 => w
  | n + 1 =>
      let w' := extendSchedule w n
      let i := w'.length
      w' ++ [(ssig1 (w'.getD (i - 2) 0) + w'.getD (i - 7) 0 +
              ssig0 (w'.getD (i - 15) 0) + w'.getD (i - 16) 0) % 2 ^ 32]

/-- One SHA-256 compression round on the eight-word working state. -/
def roundStep (st : List Nat) (ki wi : Nat) : List Nat :=
  match st with
  | [a, b, c, d, e, f, g, h] =>
      let t1 := (h + bsig1 e + shaCh e f g + ki + wi) % 2 ^ 32
      let t2 := (bsig0 a + shaMaj a b c) % 2 ^ 32
      [(t1 + t2) % 2 ^ 32, a, b, c, (d + t1) % 2 ^ 32, e, f, g]
  | other => other

/-- Compress one 64-byte block into the running eight-word state. -/
def compressBlock (hs block : List Nat) : List Nat :=
  let w := extendSchedule (toWords block) 48
  let st := (List.zip shaK w).foldl (fun st p => roundStep st p.1 p.2) hs
  List.zipWith (fun a b => (a + b) % 2 ^ 32) hs st

/-- Consume the padded message 64 bytes at a time, compressing each full block. -/
def absorb (hs cur : List Nat) : List Nat → List Nat
  | [] => hs
  | b :: rest =>
      let cur' := cur ++ [b]
      if cur'.length = 64 then absorb (compressBlock hs cur') [] rest
      else absorb hs cur' rest

/-- The eight bytes of `n` in big-endian order. -/
def be64 (n : Nat) : List Nat :=
  (List.range 8).map (fun i => (n >>> (56 - 8 * i)) &&& 0xff)

/-- SHA-256 padding: a 0x80 byte, zeros to 56 mod 64, then the bit length. -/
def padMsg (msg : List Nat) : List Nat :=
  let len := msg.length
  let zeros := (120 - (len + 1) % 64) % 64
  msg ++ [0x80] ++ List.replicate zeros 0 ++ be64 (len * 8)

/-- SHA-256 of a byte list, as the eight 32-bit state words. -/
def sha256 (msg : List Nat) : List Nat := absorb shaH0 [] (padMsg msg)

/-- Lowercase hex digit for a value below 16. -/
def hexDigit (n : Nat) : Char := Char.ofNat (if n < 10 then 48 + n else 87 + n)

/-- Eight lowercase hex characters of a 32-bit word, most significant first. -/
def word2hex (w : Nat) : List Char :=
  (List.range 8).map (fun i => hexDigit ((w >>> (28 - 4 * i)) &&& 15))

/-- SHA-256 of a byte list as a lowercase 64-character hex string. -/
def sha256hex (msg : List Nat) : String :=
  String.mk ((sha256 msg).map word2hex).flatten

/-- UTF-8 encoding of one Unicode scalar value. -/
def encodeChar (c : Char) : List Nat :=
  let n := c.toNat
  if n < 0x80 then [n]
  else if n < 0x800 then
    [0xc0 ||| (n >>> 6), 0x80 ||| (n &&& 0x3f)]
  else if n < 0x10000 then
    [0xe0 ||| (n >>> 12), 0x80 ||| ((n >>> 6) &&& 0x3f), 0x80 ||| (n &&& 0x3f)]
  else
    [0xf0 ||| (n >>> 18), 0x80 ||| ((n >>> 12) &&& 0x3f),
     0x80 ||| ((n >>> 6) &&& 0x3f), 0x80 ||| (n &&& 0x3f)]

/-- UTF-8 bytes of a string (the fixed, explicit text encoding). -/
def utf8Bytes (s : String) : List Nat := (s.data.map encodeChar).flatten

/-- Modelled from the spec: `hash_text(text) -> ContentHash` — the lowercase
hex digest of the fixed hash function (SHA-256) applied to the text encoded
in a fixed, explicit encoding (UTF-8).  The sealer/verifier scripts are not
present under `src/`. -/
def hash_text (s : String) : String := sha256hex (utf8Bytes s)

/-! ## File-system model and Content Sealer (modelled from the spec) -/

/-- Modelled from the spec: the `ReadError` raised when a document source
cannot be read or decoded, identifying the offending path. -/
structure ReadErr where
  path : String
deriving DecidableEq, Repr

instance {ε α : Type} [DecidableEq ε] [DecidableEq α] : DecidableEq (Except ε α) := fun a b =>
  match a, b with
  | .ok x, .ok y =>
      if h : x = y then .isTrue (by rw [h]) else .isFalse (by intro hc; cases hc; exact h rfl)
  | .error x, .error y =>
      if h : x = y then .isTrue (by rw [h]) else .isFalse (by intro hc; cases hc; exact h rfl)
  | .ok _, .error _ => .isFalse (by intro hc; cases hc)
  | .error _, .ok _ => .isFalse (by intro hc; cases hc)

/-- A file's raw data: decodable text, or binary/undecodable content. -/
inductive FileData
  | text (s : String)
  | unreadable
deriving DecidableEq, Repr

/-- A file-system node: a regular file or a directory of named children. -/
inductive FSNode
  | file (d : FileData)
  | dir (entries : List (String × FSNode))

mutual

/-- All regular files reachable from a node, with their full paths, in the
stored (creation) order of directory entries. -/
def listFiles (path : String) : FSNode → List (String × FileData)
  | .file d => [(path, d)]
  | .dir es => listFilesEntries path es

/-- All regular files reachable from a directory's child list. -/
def listFilesEntries (path : String) : List (String × FSNode) → List (String × FileData)
  | [] => []
  | (n, c) :: rest => listFiles (path ++ "/" ++ n) c ++ listFilesEntries path rest

end

/-- Lexicographic comparison of character sequences (by code point). -/
def charListLe : List Char → List Char → Bool
  | [], _ => true
  | _ :: _, [] => false
  | a :: as, b :: bs =>
      if a.toNat < b.toNat then true
      else if b.toNat < a.toNat then false
      else charListLe as bs

theorem charListLe_total : ∀ x y, charListLe x y = true ∨ charListLe y x = true
  | [], _ => Or.inl rfl
  | _ :: _, [] => Or.inr rfl
  | a :: as, b :: bs => by
      rcases Nat.lt_trichotomy a.toNat b.toNat with h | h | h
      · exact Or.inl (by simp [charListLe, h])
      · have hba : ¬ b.toNat < a.toNat := by omega
        have has : ¬ a.toNat < b.toNat := by omega
        rcases charListLe_total as bs with ih | ih
        · exact Or.inl (by simp [charListLe, has, hba, h, ih])
        · exact Or.inr (by simp [charListLe, has, hba, h.symm, ih])
      · exact Or.inr (by simp [charListLe, h])

theorem charListLe_trans :
    ∀ x y z, charListLe x y = true → charListLe y z = true → charListLe x z = true
  | [], _, _, _, _ => rfl
  | _ :: _, [], _, hxy, _ => by simp [charListLe] at hxy
  | _ :: _, _ :: _, [], _, hyz => by simp [charListLe] at hyz
  | a :: as, b :: bs, c :: cs, hxy, hyz => by
      simp only [charListLe] at hxy hyz ⊢
      by_cases hbc : b.toNat < c.toNat
      · by_cases hab : a.toNat < b.toNat
        · have hac : a.toNat < c.toNat := by omega
          simp [hac]
        · by_cases hba : b.toNat < a.toNat
          · simp [hab, hba] at hxy
          · have hac : a.toNat < c.toNat := by omega
            simp [hac]
      · by_cases hcb : c.toNat < b.toNat
        · simp [hbc, hcb] at hyz
        · by_cases hab : a.toNat < b.toNat
          · have hac : a.toNat < c.toNat := by omega
            simp [hac]
          · by_cases hba : b.toNat < a.toNat
            · simp [hab, hba] at hxy
            · have h1 : ¬ a.toNat < c.toNat := by omega
              have h2 : ¬ c.toNat < a.toNat := by omega
              simp [hab, hba] at hxy
              simp [hbc, hcb] at hyz
              simp [h1, h2]
              exact charListLe_trans as bs cs hxy hyz

theorem charListLe_antisymm :
    ∀ x y, charListLe x y = true → charListLe y x = true → x = y
  | [], [], _, _ => rfl
  | [], _ :: _, _, hyx => by simp [charListLe] at hyx
  | _ :: _, [], hxy, _ => by simp [charListLe] at hxy
  | a :: as, b :: bs, hxy, hyx => by
      simp only [charListLe] at hxy hyx
      by_cases hab : a.toNat < b.toNat <;> by_cases hba : b.toNat < a.toNat <;> simp_all
      · omega
      · have hn : a.toNat = b.toNat := by omega
        have hc : a = b := by
          have := congrArg Char.ofNat hn
          simpa [Char.ofNat_toNat] using this
        exact ⟨hc, charListLe_antisymm as bs hxy hyx⟩

/-- Ordering of enumerated files by full path (lexicographic). -/
def pathLe (a b : String × FileData) : Prop := charListLe a.1.data b.1.data = true

instance : DecidableRel pathLe := fun a b =>
  inferInstanceAs (Decidable (charListLe a.1.data b.1.data = true))

instance : IsTotal (String × FileData) pathLe := ⟨fun a b => charListLe_total a.1.data b.1.data⟩

instance : IsTrans (String × FileData) pathLe :=
  ⟨fun _ _ _ h1 h2 => charListLe_trans _ _ _ h1 h2⟩

/-- Sort enumerated files into lexicographic path order. -/
def sortByPath (l : List (String × FileData)) : List (String × FileData) :=
  List.insertionSort pathLe l

/-- Read a single file as text; binary/undecodable content is a `ReadErr`
naming the file's path. -/
def readFileData (p : String) : FileData → Except ReadErr String
  | .text s => .ok s
  | .unreadable => .error ⟨p⟩

/-- Read and concatenate a list of enumerated files, in order, failing on the
first unreadable file. -/
def readFiles : List (String × FileData) → Except ReadErr String
  | [] => .ok ""
  | (p, d) :: rest => do
      let s ← readFileData p d
      let t ← readFiles rest
      pure (s ++ t)

/-- Modelled from the spec: `read_all(directory) -> text` — enumerate every
regular file reachable under the directory recursively, visit them sorted by
path, read each as text and concatenate with no separators; fail with a
`ReadErr` identifying the offending path if any file cannot be read. -/
def read_all (path : String) (entries : List (String × FSNode)) : Except ReadErr String :=
  readFiles (sortByPath (listFilesEntries path entries))

/-- A document source: a single named file, or a whole directory tree. -/
inductive Source
  | file (path : String) (d : FileData)
  | dir (path : String) (entries : List (String × FSNode))

/-- Read one document source as text. -/
def readSource : Source → Except ReadErr String
  | .file p d => readFileData p d
  | .dir p es => read_all p es

/-- Read a DocumentSet: concatenation of all source contents in source-list
order (SealInput). -/
def readSet : List Source → Except ReadErr String
  | [] => .ok ""
  | s :: rest => do
      let a ← readSource s
      let b ← readSet rest
      pure (a ++ b)

/-- Modelled from the spec: the reserved sentinel standing in for "no
predecessor". -/
def GENESIS : String := "GENESIS"

/-- Accumulating reader used by `seal`: concatenates each source's content
onto `acc` in source-list order. -/
def sealAux (acc : String) : List Source → Except ReadErr String
  | [] => .ok acc
  | s :: rest => do
      let t ← readSource s
      sealAux (acc ++ t) rest

/-- Modelled from the spec: `seal(document_sources, previous_chain_hash)` —
concatenate all document contents in source-list order into SealInput,
compute `content_hash = hash_text(SealInput)`, and return
`chain_hash = hash_text(content_hash ++ previous_chain_hash)`. -/
def «seal» (D : List Source) (previous_chain_hash : String) : Except ReadErr String := do
  let input ← sealAux "" D
  let content_hash := hash_text input
  pure (hash_text (content_hash ++ previous_chain_hash))

/-! ## Ledger and Chain Verifier (modelled from the spec) -/

/-- Modelled from the spec: a ledger entry. -/
structure LedgerEntry where
  entry_id : Nat
  timestamp : String
  phase : String
  content_hash : String
  previous_hash : String
  chain_hash : String
  decision : String
deriving DecidableEq, Repr

/-- One per-entry verification result. -/
structure EntryResult where
  entry_id : Nat
  expected_chain : String
  recorded_chain : String
  valid : Bool
deriving DecidableEq, Repr

/-- Verification status. -/
inductive VStatus
  | VALID
  | BROKEN
deriving DecidableEq, Repr

/-- Modelled from the spec: the verification report shape. -/
structure VerificationReport where
  status : VStatus
  total_entries : Option Nat
  broken_at : Option Nat
  results : List EntryResult
deriving DecidableEq, Repr

/-- The verification walk: for each entry compute the expected chain hash
from its content hash and the running `expectedPrev`, record a result, stop
at the first mismatch (returning the 1-based break index). -/
def verifyLoop (expectedPrev : String) (idx : Nat) :
    List LedgerEntry → List EntryResult × Option Nat
  | [] => ([], none)
  | e :: rest =>
      let expected := hash_text (e.content_hash ++ expectedPrev)
      if expected = e.chain_hash then
        let r := verifyLoop e.chain_hash (idx + 1) rest
        (⟨e.entry_id, expected, e.chain_hash, true⟩ :: r.1, r.2)
      else
        ([⟨e.entry_id, expected, e.chain_hash, false⟩], some idx)

/-- Modelled from the spec: `verify(entries) -> VerificationReport`. -/
def verify (entries : List LedgerEntry) : VerificationReport :=
  match verifyLoop GENESIS 1 entries with
  | (rs, none) => ⟨.VALID, some entries.length, none, rs⟩
  | (rs, some k) => ⟨.BROKEN, none, some k, rs⟩

/-- The chain invariant, relative to a predecessor hash: every entry's
`chain_hash` is the hash of its `content_hash` concatenated with its
predecessor's chain hash. -/
def chainValid (prev : String) : List LedgerEntry → Bool
  | [] => true
  | e :: rest =>
      decide (hash_text (e.content_hash ++ prev) = e.chain_hash) && chainValid e.chain_hash rest

/-- Seal a sequence of DocumentSets in order, each chained on the previous
seal, producing the ledger entries an authoring process would append. -/
def sealChain (prev : String) (idx : Nat) :
    List (List Source) → Except ReadErr (List LedgerEntry)
  | [] => .ok []
  | D :: rest =>
      match sealAux "" D with
      | .error e => .error e
      | .ok input =>
          match sealChain (hash_text (hash_text input ++ prev)) (idx + 1) rest with
          | .error e => .error e
          | .ok more =>
              .ok (⟨idx, "", "", hash_text input, prev,
                hash_text (hash_text input ++ prev), ""⟩ :: more)

/-- The chain hash a valid chain starting from `prev` presents to the entry
at 0-based position `i` (the predecessor's `chain_hash`, or `prev` for the
first entry). -/
def prevChainFrom (prev : String) : Nat → List LedgerEntry → String
  | 0, _ => prev
  | _ + 1, [] => prev
  | j + 1, e :: rest => prevChainFrom e.chain_hash j rest

/-- Replace the `content_hash` of the entry at 0-based position `i`, leaving
every other field and entry unchanged. -/
def alterContent : List LedgerEntry → Nat → String → List LedgerEntry
  | [], _, _ => []
  | e :: rest, 0, c => { e with content_hash := c } :: rest
  | e :: rest, i + 1, c => e :: alterContent rest i c

/-- Concrete fixture: a one-document DocumentSet list used by witnesses. -/
def sampleDocs : List (List Source) := [[Source.file "a" (FileData.text "x")]]

/-- Concrete fixture: the ledger obtained by sealing `sampleDocs` in order. -/
def sampleChain : List LedgerEntry := (sealChain GENESIS 1 sampleDocs).toOption.getD []

/-! ## TTS bridge handlers (translated from the source under `src/`) -/

/-- Python's `str.strip()`: remove leading and trailing whitespace. -/
def pyStrip (s : String) : String :=
  String.mk (((s.data.dropWhile Char.isWhitespace).reverse.dropWhile Char.isWhitespace).reverse)

/-- The name sanitizer of `save_voice` in `qwen3-tts-bridge.py`:
`"".join(c for c in name if c.isalnum() or c in "-_").strip()`.
Python's `str.isalnum` consults the runtime's Unicode character table
(non-ASCII letters such as `é` or `日` count as alphanumeric); the embedding
abstracts that table as the parameter `isAlnum`, so everything proved below
holds for whatever table the Python runtime provides.  The `c in "-_"` test
and the final strip are concrete. -/
def sanitizeVoiceName (isAlnum : Char → Bool) (name : String) : String :=
  pyStrip (String.mk (name.data.filter fun c => isAlnum c || c == '-' || c == '_'))

/-- `VOICES_DIR` of `qwen3-tts-bridge.py`. -/
def VOICES_DIR : String := "/home/workspace/tts-data/voices"

/-- Observable outcome of the `save_voice` handler: HTTP status, error body,
success payload, and the path written (if any). -/
structure SaveVoiceResult where
  statusCode : Nat
  error : Option String
  saved : Bool
  name : Option String
  writtenPath : Option String
deriving DecidableEq, Repr

/-- The `save_voice` handler of `qwen3-tts-bridge.py`: sanitize the name;
on an empty result return HTTP 400 "Invalid voice name" writing nothing,
otherwise write the upload to `VOICES_DIR/<safe_name>.wav` and return
`saved: True` with the sanitized name.  `isAlnum` is the Python runtime's
Unicode alphanumeric test, abstracted as in `sanitizeVoiceName`. -/
def save_voice (isAlnum : Char → Bool) (name : String) : SaveVoiceResult :=
  let safe_name := sanitizeVoiceName isAlnum name
  if safe_name = "" then
    ⟨400, some "Invalid voice name", false, none, none⟩
  else
    ⟨200, none, true, some safe_name, some (VOICES_DIR ++ "/" ++ safe_name ++ ".wav")⟩

/-- Observable outcome of the `/tts` endpoint: an `HTTPException` with a
status and detail, or a response with body bytes, media type and headers. -/
inductive TTSResponse
  | httpError (status : Nat) (detail : String)
  | audio (body : List Nat) (mediaType : String) (headers : List (String × String))
deriving DecidableEq, Repr

/-- The `text_to_speech` handler of `server.py`: raise 400 "Text is required"
when the request's text is empty, otherwise return an empty `audio/wav` body
with the stub headers.  The request's `voice` field is never consulted. -/
def text_to_speech (text _voice : String) : TTSResponse :=
  if text = "" then .httpError 400 "Text is required"
  else .audio [] "audio/wav"
    [("X-TTS-Status", "stub"), ("X-TTS-Message", "Qwen3 model not yet configured")]

/-! ## Helper lemmas -/

theorem sealAux_eq (D : List Source) (acc : String) :
    sealAux acc D = (readSet D).map (fun s => acc ++ s) := by
  induction D generalizing acc with
  | nil => simp [sealAux, readSet, Except.map]
  | cons s rest ih =>
      simp only [sealAux, readSet]
      cases h : readSource s with
      | error e => rfl
      | ok t =>
          show sealAux (acc ++ t) rest = _
          rw [ih]
          cases hr : readSet rest with
          | error e2 => rfl
          | ok b =>
              show Except.ok (acc ++ t ++ b) = _
              rw [String.append_assoc]
              rfl

theorem sealAux_empty (D : List Source) : sealAux "" D = readSet D := by
  rw [sealAux_eq]
  cases readSet D <;> simp [Except.map]

theorem verifyLoop_of_chainValid :
    ∀ (l : List LedgerEntry) (prev : String) (idx : Nat), chainValid prev l = true →
      (verifyLoop prev idx l).2 = none ∧
      (verifyLoop prev idx l).1.length = l.length ∧
      ∀ r ∈ (verifyLoop prev idx l).1, r.valid = true
  | [], _, _, _ => by simp [verifyLoop]
  | e :: rest, prev, idx, h => by
      simp only [chainValid, Bool.and_eq_true, decide_eq_true_eq] at h
      obtain ⟨h1, h2⟩ := h
      obtain ⟨ih1, ih2, ih3⟩ := verifyLoop_of_chainValid rest e.chain_hash (idx + 1) h2
      simp only [verifyLoop, h1, if_pos]
      refine ⟨ih1, by simpa using ih2, ?_⟩
      intro r hr
      rcases List.mem_cons.mp hr with hhead | htail
      · rw [hhead]
      · exact ih3 r htail

theorem sealChain_ok :
    ∀ (Ds : List (List Source)) (prev : String) (idx : Nat) (entries : List LedgerEntry),
      sealChain prev idx Ds = .ok entries →
      chainValid prev entries = true ∧ entries.length = Ds.length
  | [], _, _, entries, h => by
      simp only [sealChain] at h
      cases h
      exact ⟨rfl, rfl⟩
  | D :: rest, prev, idx, entries, h => by
      simp only [sealChain] at h
      cases hin : sealAux "" D with
      | error e => simp only [hin] at h; cases h
      | ok input =>
          simp only [hin] at h
          cases hrest : sealChain (hash_text (hash_text input ++ prev)) (idx + 1) rest with
          | error e => simp only [hrest] at h; cases h
          | ok more =>
              simp only [hrest] at h
              cases h
              obtain ⟨ihv, ihl⟩ :=
                sealChain_ok rest (hash_text (hash_text input ++ prev)) (idx + 1) more hrest
              refine ⟨?_, by simpa using ihl⟩
              simp [chainValid, ihv]

theorem verifyLoop_break :
    ∀ (l : List LedgerEntry) (prev : String) (idx i : Nat) (c : String) (ei : LedgerEntry),
      chainValid prev l = true → l[i]? = some ei →
      hash_text (c ++ prevChainFrom prev i l) ≠ ei.chain_hash →
      ∃ rs, verifyLoop prev idx (alterContent l i c) = (rs, some (idx + i)) ∧
        rs.length = i + 1
  | [], _, _, i, _, _, _, hei, _ => by simp at hei
  | e :: rest, prev, idx, 0, c, ei, _, hei, hne => by
      have he : e = ei := by simpa using hei
      subst he
      have hne' : hash_text (c ++ prev) ≠ e.chain_hash := by
        simpa [prevChainFrom] using hne
      refine ⟨[⟨e.entry_id, hash_text (c ++ prev), e.chain_hash, false⟩], ?_, rfl⟩
      simp [alterContent, verifyLoop, hne']
  | e :: rest, prev, idx, j + 1, c, ei, hval, hei, hne => by
      simp only [chainValid, Bool.and_eq_true, decide_eq_true_eq] at hval
      obtain ⟨h1, h2⟩ := hval
      have hei' : rest[j]? = some ei := by simpa using hei
      have hne' : hash_text (c ++ prevChainFrom e.chain_hash j rest) ≠ ei.chain_hash := by
        simpa [prevChainFrom] using hne
      obtain ⟨rs, hrs, hlen⟩ :=
        verifyLoop_break rest e.chain_hash (idx + 1) j c ei h2 hei' hne'
      refine ⟨⟨e.entry_id, hash_text (e.content_hash ++ prev), e.chain_hash, true⟩ :: rs,
        ?_, by simp [hlen]⟩
      simp only [alterContent, verifyLoop, h1, if_pos, hrs]
      refine Prod.ext rfl ?_
      simp
      omega

theorem verifyLoop_break_append :
    ∀ (l : List LedgerEntry) (prev : String) (idx : Nat) (rs : List EntryResult) (b : Nat)
      (junk : List LedgerEntry),
      verifyLoop prev idx l = (rs, some b) →
      verifyLoop prev idx (l ++ junk) = (rs, some b)
  | [], _, _, _, _, _, h => by simp [verifyLoop] at h
  | e :: rest, prev, idx, rs, b, junk, h => by
      by_cases hc : hash_text (e.content_hash ++ prev) = e.chain_hash
      · rcases hR : verifyLoop e.chain_hash (idx + 1) rest with ⟨rs', b'⟩
        simp only [verifyLoop, hc, if_pos, hR] at h
        injection h with hrs hb
        cases b' with
        | none => exact absurd hb (by simp)
        | some bb =>
            have hIH := verifyLoop_break_append rest e.chain_hash (idx + 1) rs' bb junk hR
            have hIH2 : verifyLoop e.chain_hash (idx + 1) (List.append rest junk) =
                (rs', some bb) := hIH
            simp only [List.cons_append, verifyLoop, hc, if_pos, hIH, hIH2]
            rw [hrs, hb]
      · simp only [verifyLoop, hc, if_neg, not_false_iff] at h
        simp only [List.cons_append, verifyLoop, hc, if_neg, not_false_iff]
        exact h

theorem chainValid_take :
    ∀ (l : List LedgerEntry) (n : Nat) (prev : String),
      chainValid prev l = true → chainValid prev (l.take n) = true
  | _, 0, _, _ => rfl
  | [], _ + 1, _, _ => rfl
  | e :: rest, n + 1, prev, h => by
      simp only [chainValid, Bool.and_eq_true, decide_eq_true_eq] at h
      simp only [List.take, chainValid, Bool.and_eq_true, decide_eq_true_eq]
      exact ⟨h.1, chainValid_take rest n e.chain_hash h.2⟩

theorem prevChainFrom_take :
    ∀ (l : List LedgerEntry) (n i : Nat) (prev : String), i < n →
      prevChainFrom prev i (l.take n) = prevChainFrom prev i l
  | _, _, 0, _, _ => rfl
  | [], _, _ + 1, _, _ => by simp
  | e :: rest, n + 1, i + 1, prev, hin => by
      simp only [List.take, prevChainFrom]
      exact prevChainFrom_take rest n i e.chain_hash (by omega)
  | _ :: _, 0, _ + 1, _, hin => by omega

theorem alterContent_take :
    ∀ (l : List LedgerEntry) (n i : Nat) (c : String), i < n →
      (alterContent l i c).take n = alterContent (l.take n) i c
  | [], _, _, _, _ => by simp [alterContent]
  | e :: rest, n + 1, 0, c, _ => by simp [alterContent, List.take]
  | e :: rest, n + 1, i + 1, c, hin => by
      simp only [alterContent, List.take, List.cons.injEq, true_and]
      exact alterContent_take rest n i c (by omega)
  | _ :: _, 0, _, _, hin => by omega

theorem readFiles_error_of_mem :
    ∀ (l : List (String × FileData)) (p : String), (p, FileData.unreadable) ∈ l →
      ∃ q, readFiles l = .error ⟨q⟩ ∧ (q, FileData.unreadable) ∈ l
  | [], p, h => by simp at h
  | (p0, d0) :: rest, p, h => by
      cases d0 with
      | unreadable => exact ⟨p0, rfl, by simp⟩
      | text s =>
          have hrest : (p, FileData.unreadable) ∈ rest := by
            rcases List.mem_cons.mp h with h0 | h0
            · simp at h0
            · exact h0
          obtain ⟨q, hq, hmem⟩ := readFiles_error_of_mem rest p hrest
          refine ⟨q, ?_, by simp [hmem]⟩
          show (readFiles rest >>= fun t => pure (s ++ t)) = .error ⟨q⟩
          rw [hq]
          rfl

theorem readFiles_ok_no_unreadable (l : List (String × FileData)) (s : String)
    (h : readFiles l = .ok s) (p : String) : (p, FileData.unreadable) ∉ l := by
  intro hmem
  obtain ⟨q, hq, _⟩ := readFiles_error_of_mem l p hmem
  rw [hq] at h
  cases h

theorem sorted_perm_eq_of_nodup_keys :
    ∀ (l1 l2 : List (String × FileData)), l1.Perm l2 →
      List.Sorted pathLe l1 → List.Sorted pathLe l2 →
      (l1.map Prod.fst).Nodup → l1 = l2
  | [], l2, hp, _, _, _ => List.Perm.nil_eq hp
  | a :: t1, l2, hp, hs1, hs2, hnd => by
      cases l2 with
      | nil => cases List.Perm.eq_nil hp
      | cons b t2 =>
          have hab : a = b := by
            have hamem : a ∈ b :: t2 := hp.mem_iff.mp (List.mem_cons_self a t1)
            have hbmem : b ∈ a :: t1 := hp.mem_iff.mpr (List.mem_cons_self b t2)
            rcases List.mem_cons.mp hbmem with hb1 | hb1
            · exact hb1.symm
            · rcases List.mem_cons.mp hamem with ha1 | ha1
              · exact ha1
              · have h1 : pathLe a b := (List.sorted_cons.mp hs1).1 b hb1
                have h2 : pathLe b a := (List.sorted_cons.mp hs2).1 a ha1
                have hkey : a.1 = b.1 :=
                  String.ext (charListLe_antisymm a.1.data b.1.data h1 h2)
                have hin : a.1 ∈ t1.map Prod.fst :=
                  List.mem_map.mpr ⟨b, hb1, hkey.symm⟩
                have hnd' : a.1 ∉ t1.map Prod.fst := by
                  simp only [List.map_cons, List.nodup_cons] at hnd
                  exact hnd.1
                exact absurd hin hnd'
          subst hab
          have hp' : t1.Perm t2 := hp.cons_inv
          have hrec := sorted_perm_eq_of_nodup_keys t1 t2 hp'
            (List.sorted_cons.mp hs1).2 (List.sorted_cons.mp hs2).2
            (by
              simp only [List.map_cons, List.nodup_cons] at hnd
              exact hnd.2)
          rw [hrec]

/-! ## Claim theorems -/

/-- C1: for every DocumentSet `D` and previous chain hash `P`, `seal D P`
concatenates all document contents of `D` in source-list order into a single
SealInput, computes `content_hash = hash_text SealInput`, and returns
`chain_hash = hash_text (content_hash ++ P)`, where `++` is concatenation of
the two digest strings as text, not numeric addition. -/
theorem C1_seal_algorithm (D : List Source) (P : String) :
    «seal» D P =
      match readSet D with
      | .ok input => .ok (hash_text (hash_text input ++ P))
      | .error e => .error e := by
  unfold «seal»
  rw [sealAux_empty]
  cases readSet D <;> simp [Except.bind]

/-- C2: for every valid chain and every 1-based position `k` in it, if entry
`k`'s stored `content_hash` is altered so that the recomputed chain hash no
longer matches the recorded one, `verify` returns `BROKEN` with
`broken_at = k` and a results list of exactly `k` elements, and entries
after position `k` are never evaluated (the report is unchanged whatever
stands after the break). -/
theorem C2_break_detection (l : List LedgerEntry) (k : Nat) (c : String) (ei : LedgerEntry)
    (hvalid : chainValid GENESIS l = true)
    (hk : 1 ≤ k) (hkN : k ≤ l.length)
    (hei : l[k - 1]? = some ei)
    (hne : hash_text (c ++ prevChainFrom GENESIS (k - 1) l) ≠ ei.chain_hash) :
    (verify (alterContent l (k - 1) c)).status = .BROKEN ∧
    (verify (alterContent l (k - 1) c)).broken_at = some k ∧
    (verify (alterContent l (k - 1) c)).results.length = k ∧
    ∀ junk, verify ((alterContent l (k - 1) c).take k ++ junk) =
      verify (alterContent l (k - 1) c) := by
  obtain ⟨rs, hrs, hlen⟩ := verifyLoop_break l GENESIS 1 (k - 1) c ei hvalid hei hne
  have hk1 : 1 + (k - 1) = k := by omega
  rw [hk1] at hrs
  have hverify : verify (alterContent l (k - 1) c) = ⟨.BROKEN, none, some k, rs⟩ := by
    unfold verify
    rw [hrs]
  have hvalid' : chainValid GENESIS (l.take k) = true := chainValid_take l k GENESIS hvalid
  have hei' : (l.take k)[k - 1]? = some ei := by
    rw [List.getElem?_take_of_lt (by omega)]
    exact hei
  have hne' : hash_text (c ++ prevChainFrom GENESIS (k - 1) (l.take k)) ≠ ei.chain_hash := by
    rw [prevChainFrom_take l k (k - 1) GENESIS (by omega)]
    exact hne
  obtain ⟨rs2, hrs2, hlen2⟩ :=
    verifyLoop_break (l.take k) GENESIS 1 (k - 1) c ei hvalid' hei' hne'
  rw [hk1] at hrs2
  rw [← alterContent_take l k (k - 1) c (by omega)] at hrs2
  have happ : ∀ junk,
      verifyLoop GENESIS 1 ((alterContent l (k - 1) c).take k ++ junk) = (rs2, some k) :=
    fun junk => verifyLoop_break_append _ GENESIS 1 rs2 k junk hrs2
  refine ⟨by rw [hverify], by rw [hverify], ?_, ?_⟩
  · rw [hverify]
    show rs.length = k
    omega
  · intro junk
    have h1 := happ junk
    have h2 := happ ((alterContent l (k - 1) c).drop k)
    rw [List.take_append_drop] at h2
    rw [hrs] at h2
    injection h2 with h21 _h22
    unfold verify
    rw [h1, hrs, h21]

/-- C2 witness: a concrete one-entry valid chain whose entry 1 has its
content hash replaced by "00"; verification reports BROKEN at 1 with one
result. -/
theorem C2_break_detection_witness :
    (verify (alterContent sampleChain 0 "00")).status = .BROKEN ∧
    (verify (alterContent sampleChain 0 "00")).broken_at = some 1 ∧
    (verify (alterContent sampleChain 0 "00")).results.length = 1 := by
  have H := C2_break_detection sampleChain 1 "00"
    ((sampleChain[0]?).getD ⟨0, "", "", "", "", "", ""⟩)
    (by decide) (by decide) (by decide) (by decide) (by decide)
  exact ⟨H.1, H.2.1, H.2.2.1⟩

/-- C3: sealing a sequence of N documents in order (each chained on the
previous seal, starting from GENESIS) and verifying the resulting entries
yields VALID with `total_entries = N` and every per-entry result valid. -/
theorem C3_roundtrip (Ds : List (List Source)) (entries : List LedgerEntry)
    (h : sealChain GENESIS 1 Ds = .ok entries) :
    (verify entries).status = .VALID ∧
    (verify entries).total_entries = some Ds.length ∧
    ∀ r ∈ (verify entries).results, r.valid = true := by
  obtain ⟨hv, hlen⟩ := sealChain_ok Ds GENESIS 1 entries h
  obtain ⟨h2, _h3, h4⟩ := verifyLoop_of_chainValid entries GENESIS 1 hv
  rcases hV : verifyLoop GENESIS 1 entries with ⟨rs, b⟩
  rw [hV] at h2 h4
  simp only at h2 h4
  subst h2
  have hverify : verify entries = ⟨.VALID, some entries.length, none, rs⟩ := by
    unfold verify
    rw [hV]
  rw [hverify]
  exact ⟨rfl, by simp [hlen], h4⟩

/-- C3 witness: sealing and then verifying a concrete one-document sequence
returns VALID with one entry. -/
theorem C3_roundtrip_witness :
    (verify sampleChain).status = .VALID ∧
    (verify sampleChain).total_entries = some 1 :=
  ⟨(C3_roundtrip sampleDocs sampleChain (by decide)).1,
   (C3_roundtrip sampleDocs sampleChain (by decide)).2.1⟩

/-- C4: `verify` applied to the empty entry sequence returns `VALID` with
`total_entries = 0` and an empty results list. -/
theorem C4_verify_empty : verify [] = ⟨.VALID, some 0, none, []⟩ := rfl

/-- C5: if any entry under a directory cannot be read as text, `read_all`
fails with a ReadError identifying the offending path; it never silently
skips or substitutes content (a successful read implies no unreadable file
exists); and a read failure is fatal to the enclosing seal computation,
surfaced as the same error. -/
theorem C5_read_error :
    (∀ base es p, (p, FileData.unreadable) ∈ listFilesEntries base es →
      ∃ q, read_all base es = .error ⟨q⟩ ∧ (q, FileData.unreadable) ∈ listFilesEntries base es) ∧
    (∀ base es s, read_all base es = .ok s →
      ∀ p, (p, FileData.unreadable) ∉ listFilesEntries base es) ∧
    (∀ D P e, readSet D = .error e → «seal» D P = .error e) := by
  refine ⟨?_, ?_, ?_⟩
  · intro base es p hmem
    have hmem' : (p, FileData.unreadable) ∈ sortByPath (listFilesEntries base es) :=
      ((List.perm_insertionSort pathLe _).mem_iff).mpr hmem
    obtain ⟨q, hq, hqmem⟩ := readFiles_error_of_mem _ p hmem'
    exact ⟨q, hq, ((List.perm_insertionSort pathLe _).mem_iff).mp hqmem⟩
  · intro base es s h p hmem
    have hmem' : (p, FileData.unreadable) ∈ sortByPath (listFilesEntries base es) :=
      ((List.perm_insertionSort pathLe _).mem_iff).mpr hmem
    exact readFiles_ok_no_unreadable _ s h p hmem'
  · intro D P e h
    unfold «seal»
    rw [sealAux_empty, h]
    rfl

/-- C5 witness: a directory holding one binary file makes `read_all` fail
with a ReadError naming that file, and sealing a DocumentSet containing
that directory fails with the same error. -/
theorem C5_read_error_witness :
    read_all "d" [("bad.bin", FSNode.file FileData.unreadable)] = .error ⟨"d/bad.bin"⟩ ∧
    «seal» [Source.dir "d" [("bad.bin", FSNode.file FileData.unreadable)]] GENESIS =
      .error ⟨"d/bad.bin"⟩ := by
  constructor
  · obtain ⟨q, hq, hmem⟩ := C5_read_error.1 "d" [("bad.bin", FSNode.file FileData.unreadable)]
      "d/bad.bin" (by decide)
    have hqq : q = "d/bad.bin" := by
      simpa [listFilesEntries, listFiles] using hmem
    rw [hqq] at hq
    exact hq
  · exact C5_read_error.2.2 [Source.dir "d" [("bad.bin", FSNode.file FileData.unreadable)]]
      GENESIS ⟨"d/bad.bin"⟩ (by decide)

/-- C6: `read_all` visits every regular file reachable under a directory in
lexicographic path order (it reads the path-sorted enumeration, which is a
sorted permutation of the enumerated files) and concatenates their contents
with no separators; for a directory listing `b.txt` before `a.txt`,
`a.txt`'s content precedes `b.txt`'s, and the result — hence the hash — is
independent of the stored (creation) order whenever paths are distinct. -/
theorem C6_directory_order :
    (∀ A B : String,
      read_all "d" [("b.txt", .file (.text B)), ("a.txt", .file (.text A))] = .ok (A ++ B)) ∧
    (∀ base es,
      read_all base es = readFiles (sortByPath (listFilesEntries base es)) ∧
      List.Sorted pathLe (sortByPath (listFilesEntries base es)) ∧
      (sortByPath (listFilesEntries base es)).Perm (listFilesEntries base es)) ∧
    (∀ base es1 es2, (listFilesEntries base es1).Perm (listFilesEntries base es2) →
      ((listFilesEntries base es1).map Prod.fst).Nodup →
      read_all base es1 = read_all base es2) := by
  refine ⟨?_, ?_, ?_⟩
  · intro A B
    show Except.ok (A ++ (B ++ "")) = Except.ok (A ++ B)
    rw [String.append_empty]
  · intro base es
    exact ⟨rfl, List.sorted_insertionSort pathLe _, List.perm_insertionSort pathLe _⟩
  · intro base es1 es2 hperm hnd
    have hs : sortByPath (listFilesEntries base es1) = sortByPath (listFilesEntries base es2) := by
      apply sorted_perm_eq_of_nodup_keys
      · exact (List.perm_insertionSort pathLe _).trans
          (hperm.trans (List.perm_insertionSort pathLe _).symm)
      · exact List.sorted_insertionSort pathLe _
      · exact List.sorted_insertionSort pathLe _
      · exact (((List.perm_insertionSort pathLe _).map Prod.fst).nodup_iff).mpr hnd
    show readFiles (sortByPath (listFilesEntries base es1)) = _
    rw [hs]
    rfl

/-- C6 witness: a directory storing `b.txt` (content "B") before `a.txt`
(content "A") reads as "AB", and reading it equals reading the same files
stored in the opposite order. -/
theorem C6_directory_order_witness :
    read_all "d" [("b.txt", FSNode.file (FileData.text "B")),
      ("a.txt", FSNode.file (FileData.text "A"))] = .ok "AB" ∧
    read_all "d" [("b.txt", FSNode.file (FileData.text "B")),
        ("a.txt", FSNode.file (FileData.text "A"))] =
      read_all "d" [("a.txt", FSNode.file (FileData.text "A")),
        ("b.txt", FSNode.file (FileData.text "B"))] := by
  constructor
  · exact Eq.trans (C6_directory_order.1 "A" "B") (by decide)
  · exact C6_directory_order.2.2 "d"
      [("b.txt", FSNode.file (FileData.text "B")), ("a.txt", FSNode.file (FileData.text "A"))]
      [("a.txt", FSNode.file (FileData.text "A")), ("b.txt", FSNode.file (FileData.text "B"))]
      (by decide) (by decide)

/-- C7: `hash_text` applied to the empty string returns the lowercase hex
SHA-256 digest of the empty string; empty input is valid, not an error. -/
theorem C7_hash_empty :
    hash_text "" = "e3b0c44298fc1c149afbf4c8996fb92427ae41e4649b934ca495991b7852b855" := by
  decide

/-- C8: `seal` and `verify` are deterministic pure functions — two calls on
the same input return identical output — and the seal depends only on the
bytes read from the DocumentSet and the previous hash, nothing hidden. -/
theorem C8_deterministic (D D₂ : List Source) (P : String) (es : List LedgerEntry) :
    («seal» D P = «seal» D P ∧ verify es = verify es) ∧
    (readSet D = readSet D₂ → «seal» D P = «seal» D₂ P) := by
  refine ⟨⟨rfl, rfl⟩, fun h => ?_⟩
  unfold «seal»
  rw [sealAux_empty, sealAux_empty, h]

/-- C8 witness: determinism at a concrete DocumentSet and entry list. -/
theorem C8_deterministic_witness :
    «seal» [Source.file "a" (.text "x")] GENESIS =
      «seal» [Source.file "b" (.text "x")] GENESIS := by
  exact (C8_deterministic [Source.file "a" (.text "x")] [Source.file "b" (.text "x")]
    GENESIS []).2 (by decide)

/-- C9: `save_voice` sanitizes the submitted name by keeping only characters
that are alphanumeric (per the Python runtime's Unicode table, abstracted as
`isAlnum`) or in "-_" and stripping whitespace; if the sanitized name is
empty it returns HTTP 400 with error "Invalid voice name" and writes no
file, otherwise it writes `VOICES_DIR/<sanitized>.wav` and returns
`saved: True` with the sanitized (not the original) name. -/
theorem C9_save_voice (isAlnum : Char → Bool) (name : String) :
    sanitizeVoiceName isAlnum name =
      pyStrip (String.mk (name.data.filter fun c => isAlnum c || c == '-' || c == '_')) ∧
    (sanitizeVoiceName isAlnum name = "" →
      save_voice isAlnum name = ⟨400, some "Invalid voice name", false, none, none⟩) ∧
    (sanitizeVoiceName isAlnum name ≠ "" →
      save_voice isAlnum name = ⟨200, none, true, some (sanitizeVoiceName isAlnum name),
        some (VOICES_DIR ++ "/" ++ sanitizeVoiceName isAlnum name ++ ".wav")⟩) := by
  refine ⟨rfl, fun h => ?_, fun h => ?_⟩ <;> simp [save_voice, h]

/-- C9 witness: with the ASCII part of the table, a name sanitizing to empty
is rejected with 400 and writes nothing, while a name with spaces and
punctuation is saved under its sanitized form; with a table accepting
non-ASCII scalars (as Python's Unicode `str.isalnum` does for CJK letters),
the name "日本語" is kept whole and saved. -/
theorem C9_save_voice_witness :
    save_voice Char.isAlphanum " !!" = ⟨400, some "Invalid voice name", false, none, none⟩ ∧
    save_voice Char.isAlphanum "my voice!" = ⟨200, none, true, some "myvoice",
      some "/home/workspace/tts-data/voices/myvoice.wav"⟩ ∧
    save_voice (fun c => c.isAlphanum || decide (0x80 ≤ c.toNat)) "日本語" =
      ⟨200, none, true, some "日本語",
        some "/home/workspace/tts-data/voices/日本語.wav"⟩ := by
  refine ⟨(C9_save_voice Char.isAlphanum " !!").2.1 (by decide), ?_, ?_⟩
  · have h := (C9_save_voice Char.isAlphanum "my voice!").2.2 (by decide)
    rw [h]
    decide
  · have h := (C9_save_voice (fun c => c.isAlphanum || decide (0x80 ≤ c.toNat)) "日本語").2.2
      (by decide)
    rw [h]
    decide

/-- C10: the `/tts` endpoint raises HTTP 400 "Text is required" exactly when
the request's text is empty; for every request with non-empty text it
returns an `audio/wav` response with an empty byte body and the headers
`X-TTS-Status: stub` and `X-TTS-Message` present, whatever the voice. -/
theorem C10_tts_endpoint (text voice : String) :
    (text_to_speech text voice = .httpError 400 "Text is required" ↔ text = "") ∧
    (text ≠ "" → text_to_speech text voice = .audio [] "audio/wav"
      [("X-TTS-Status", "stub"), ("X-TTS-Message", "Qwen3 model not yet configured")]) := by
  refine ⟨⟨fun h => ?_, fun h => by simp [text_to_speech, h]⟩, fun h => by simp [text_to_speech, h]⟩
  by_contra hne
  simp [text_to_speech, hne] at h

/-- C10 witness: empty text yields the 400 error; "hello" yields the stub
audio response. -/
theorem C10_tts_endpoint_witness :
    text_to_speech "" "default" = .httpError 400 "Text is required" ∧
    text_to_speech "hello" "default" = .audio [] "audio/wav"
      [("X-TTS-Status", "stub"), ("X-TTS-Message", "Qwen3 model not yet configured")] :=
  ⟨(C10_tts_endpoint "" "default").1.mpr rfl,
   (C10_tts_endpoint "hello" "default").2 (by decide)⟩

end ZoQore
